import Mathlib

/-!
# gofs: command-line resolution (`args.go`)

A shallow embedding of `args.go` of `duruyao/gofs`, the file that turns the
command line into the serving plan `(addr, dir, filename, prefix, url, err)`.

* Go strings are byte sequences and the code indexes them by byte, so a string
  is a list of bytes.
* The package-level variables are the record `Globals`; `ParseArgs` reads and
  writes them, so it takes the record and hands back the updated one.
* Everything the code asks of its surroundings (the argument vector, the
  filesystem, the `flag` package, the two helpers `AbsPathMust` and
  `UserHomeDirMust` that are declared in another file) is the record `Env`.
* A run of `ParseArgs` ends by returning, by a run-time panic, or by a
  process exit: the one `flag.Parse` performs on a malformed command line, or
  the one `log.Fatalln` performs when the usage text cannot be written.
-/

set_option autoImplicit false

namespace Gofs

/-! ## Strings -/

/-- One byte of a Go string. -/
abbrev Byte := Fin 256

/-- Go `string`: an immutable sequence of bytes. -/
abbrev GoString := List Byte

/-- The Go string written by an ASCII literal. -/
def str (s : String) : GoString := s.toList.map (fun c => Fin.ofNat c.toNat)

/-- The byte `'/'`. -/
def slash : Byte := 47

/-- The byte `'.'`. -/
def dot : Byte := 46

/-! ## Run-time failures and error values -/

deriving instance DecidableEq for Except

/-- Go run-time panics that the code of `args.go` can raise. -/
inductive Panic where
  /-- Index `s[i]` with `i` outside `0 ≤ i < len(s)`. -/
  | indexOutOfRange (index : Int) (length : Nat)
  /-- Slice `s[lo:]` with `lo > len(s)`. -/
  | sliceBoundsOutOfRange (lo : Nat) (length : Nat)
  /-- Method call on a nil interface value. -/
  | nilDereference
  deriving DecidableEq, Repr

/-- Go `error` values that occur in `args.go`; a nil `error` is `none` of
`Option GoError`. -/
inductive GoError where
  /-- Value of `errors.New(msg)`. -/
  | errorString (msg : GoString)
  /-- Value `*fs.PathError` that `os.Stat` returns, with the system call's
  error number. -/
  | pathError (op : GoString) (path : GoString) (errno : Nat)
  deriving DecidableEq, Repr

/-- Go `errors.New`. -/
def errors_New (msg : GoString) : GoError := .errorString msg

/-- Error number `ENOENT`. -/
def ENOENT : Nat := 2

/-- Go `os.IsNotExist`: false on a nil error and on errors that are not
system-call errors, true on a path error whose error number is `ENOENT`. -/
def os_IsNotExist : Option GoError → Bool
  | none => false
  | some (.errorString _) => false
  | some (.pathError _ _ errno) => errno == ENOENT

/-- Go `fs.FileInfo`, of which the code only reads `IsDir()`. -/
structure FileInfo where
  isDir : Bool
  deriving DecidableEq, Repr

/-- Bounds-checked byte index `s[i]`, with `i` a Go `int`. -/
def index (s : GoString) (i : Int) : Except Panic Byte :=
  if i < 0 then .error (.indexOutOfRange i s.length)
  else
    match s[i.toNat]? with
    | some b => .ok b
    | none => .error (.indexOutOfRange i s.length)

/-! ## Package state and surroundings -/

/-- Package-level variables of `args.go` (lines 13-20). -/
structure Globals where
  WantHelp : Bool
  WantVersion : Bool
  Scheme : GoString
  UrlPrefix : GoString
  HandlingPath : GoString
  ListeningAddr : GoString
  deriving DecidableEq, Repr

/-- The writes to standard output that a run performs and that do not end it. -/
inductive Output where
  /-- The template `UsageTmpl` executed on these four values. -/
  | usage (AppPath DefaultScheme DefaultAddr DefaultPath : GoString)
  /-- Plain text. -/
  | text (s : GoString)
  deriving DecidableEq, Repr

/-- The surroundings of one run.

`Stat` is `os.Stat`, returning Go's pair `(info, err)`.
`flagParse` is `flag.Parse()` for the flags that `InitArgs` registers: given
`os.Args[1:]` and the variables, it gives the variables after parsing, or the
exit status with which the `flag` package ends the process on a malformed
command line.
`Execute` is `tmpl.Execute(os.Stdout, data)` for the usage template and the
four values of `data`: nil, or the error of the failed write.
`AbsPathMust` and `UserHomeDirMust` are helpers of this package that are
declared outside `args.go`; they are taken as given. -/
structure Env where
  Args : List GoString
  Stat : GoString → Option FileInfo × Option GoError
  flagParse : List GoString → Globals → Except Nat Globals
  Execute : GoString → GoString → GoString → GoString → Option GoError
  AbsPathMust : GoString → GoString
  UserHomeDirMust : GoString

/-- The six named results of `ParseArgs`. The result called `prefix` in the
source is `pfx` here. -/
structure Results where
  addr : GoString
  dir : GoString
  filename : GoString
  pfx : GoString
  url : GoString
  err : Option GoError
  deriving DecidableEq, Repr

/-- How a run of `ParseArgs` ends. -/
inductive Outcome where
  /-- Normal return: the results, the variables and the text printed. -/
  | returned (r : Results) (g : Globals) (out : List Output)
  /-- Run-time panic. -/
  | panicked (p : Panic)
  /-- Process exit with the given status, performed by `flag.Parse` or by
  `log.Fatalln`. -/
  | exited (code : Nat)
  deriving DecidableEq, Repr

/-- How a call that does not return ends the run. -/
inductive Abort where
  /-- Run-time panic. -/
  | panic (p : Panic)
  /-- Process exit with the given status. -/
  | exit (code : Nat)
  deriving DecidableEq, Repr

/-! ## `path/filepath` on Unix -/

/-- Go `filepath.Base` (Unix): `"."` for the empty path; otherwise trailing
separators are stripped and the part after the last separator is returned, or
`"/"` when nothing is left. -/
def filepath_Base (path : GoString) : GoString :=
  if path = [] then [dot]
  else
    -- Strip trailing slashes.
    let path := path.rdropWhile (fun b => b == slash)
    -- Find the last element.
    let path := path.rtakeWhile (fun b => b != slash)
    -- If empty now, it had only slashes.
    if path = [] then [slash] else path

/-- The retreat of `Clean` at a `..` element, on the written bytes in reverse
order (last written byte first): `out.w--`, then `out.w--` again for as long
as `out.w > dotdot` and the byte at `out.w` is not a separator. -/
def backtrackRev : List Byte → Nat → List Byte
  | [], _ => []
  | b :: rest, dotdot =>
    if rest.length > dotdot ∧ b ≠ slash then backtrackRev rest dotdot else rest

/-- The main loop of Go `filepath.Clean`: `rest` is the unread input
`path[r:]`, `out` the bytes written so far (`out.w` is its length). Every
turn reads at least one byte, so the first argument, set to `len(path)`,
bounds the number of turns. -/
def cleanLoop (rooted : Bool) : Nat → GoString → GoString → Nat → GoString
  | 0, _, out, _ => out
  | _ + 1, [], out, _ => out
  | fuel + 1, c :: rest, out, dotdot =>
    if c = slash then
      -- empty path element
      cleanLoop rooted fuel rest out dotdot
    else if c = dot ∧ (rest = [] ∨ rest.head? = some slash) then
      -- . element
      cleanLoop rooted fuel rest out dotdot
    else if c = dot ∧ rest.head? = some dot ∧
        (rest.tail = [] ∨ rest.tail.head? = some slash) then
      -- .. element: remove to last separator
      if out.length > dotdot then
        cleanLoop rooted fuel rest.tail (backtrackRev out.reverse dotdot).reverse dotdot
      else if !rooted then
        let out := (if out.length > 0 then out ++ [slash] else out) ++ [dot, dot]
        cleanLoop rooted fuel rest.tail out out.length
      else
        cleanLoop rooted fuel rest.tail out dotdot
    else
      -- real path element: add slash if needed, copy element
      let out :=
        if (rooted && out.length != 1) || (!rooted && out.length != 0) then out ++ [slash]
        else out
      cleanLoop rooted fuel ((c :: rest).dropWhile (fun b => b != slash))
        (out ++ (c :: rest).takeWhile (fun b => b != slash)) dotdot

/-- Go `filepath.Clean` (Unix, no volume name). -/
def filepath_Clean (path : GoString) : GoString :=
  if path = [] then [dot]
  else
    let rooted := path.head? == some slash
    let out :=
      if rooted then cleanLoop rooted path.length (path.drop 1) [slash] 1
      else cleanLoop rooted path.length path [] 0
    -- Turn empty string into "."
    if out = [] then [dot] else out

/-- Go `filepath.Dir` (Unix): everything up to and including the last
separator, cleaned. -/
def filepath_Dir (path : GoString) : GoString :=
  filepath_Clean (path.rdropWhile (fun b => b != slash))

/-- Go `filepath.Join` (Unix): the elements from the first non-empty one on,
joined by separators and cleaned. -/
def filepath_Join : List GoString → GoString
  | [] => []
  | e :: rest =>
    if e ≠ [] then filepath_Clean (List.intercalate [slash] (e :: rest))
    else filepath_Join rest

/-! ## `args.go` -/

/-- Constant `VersionSerial`. -/
def VersionSerial : GoString := str "GoFS Version 2021.11.24"

/-- Keys of the map `helpArgs` in `WantUsage`, all mapped to `true`. -/
def helpArgs : List GoString := [str "-h", str "--h", str "-help", str "--help"]

/-- `WantUsage` (lines 52-65): whether some element of `os.Args[1:]` is a key
of `helpArgs`. The slice expression panics on an empty `os.Args`. -/
def WantUsage (Args : List GoString) : Except Panic Bool :=
  match Args with
  | [] => .error (.sliceBoundsOutOfRange 1 0)
  | _ :: rest => .ok (rest.any (fun arg => decide (arg ∈ helpArgs)))

/-- `ShowUsage` (lines 67-85): executes the usage template on the program path
`os.Args[0]` and the three defaults; when the execution returns an error,
`log.Fatalln` ends the process with status 1 (lines 82-84). The template is
the constant `UsageTmpl`, which parses, so `template.Must` does not panic. -/
def ShowUsage (env : Env) : Except Abort Output :=
  match env.Args with
  | [] => .error (.panic (.indexOutOfRange 0 0))
  | AppPath :: _ =>
    match env.Execute AppPath (str "http") (str "127.0.0.1:8080") env.UserHomeDirMust with
    | some _ => .error (.exit 1)
    | none => .ok (.usage AppPath (str "http") (str "127.0.0.1:8080") env.UserHomeDirMust)

/-- `ShowVersion` (lines 87-89): prints `VersionSerial` and a newline. The
code does not read the error of `fmt.Println`, so the call always returns. -/
def ShowVersion : Output := .text (VersionSerial ++ [10])

/-- `InitArgs` (lines 91-105): registering a flag stores its default in the
variable it is bound to. -/
def InitArgs (env : Env) (g : Globals) : Globals :=
  { g with
    UrlPrefix := []
    Scheme := str "http"
    WantVersion := false
    HandlingPath := env.UserHomeDirMust
    ListeningAddr := str "127.0.0.1:8080" }

/-- Lines 140-145 of `ParseArgs`, the body of `if UrlPrefix != ""`: the two
byte tests and the two re-slicings of `UrlPrefix`. -/
def trimUrlPrefix (UrlPrefix : GoString) : Except Panic GoString := do
  let first ← index UrlPrefix 0
  let UrlPrefix := if first = slash then UrlPrefix.drop 1 else UrlPrefix
  let last ← index UrlPrefix ((UrlPrefix.length : Int) - 1)
  let UrlPrefix :=
    if last = slash then UrlPrefix.take (UrlPrefix.length - 1) else UrlPrefix
  return UrlPrefix

/-- Line 151: `fmt.Sprintf("%s://%s/%s/%s", "http", addr, prefix, filename)`. -/
def formatUrl (addr pfx filename : GoString) : GoString :=
  str "http" ++ str "://" ++ addr ++ str "/" ++ pfx ++ str "/" ++ filename

/-- The results with every string empty and the given error: what a bare
`return` gives before any result but `err` has been assigned. -/
def onlyErr (err : Option GoError) : Results := ⟨[], [], [], [], [], err⟩

/-- `ParseArgs` (lines 108-154). -/
def ParseArgs (env : Env) (g : Globals) : Outcome :=
  -- the named result err starts as nil
  let err : Option GoError := none
  match WantUsage env.Args with
  | .error p => .panicked p
  | .ok true =>
    match ShowUsage env with
    | .error (.panic p) => .panicked p
    | .error (.exit code) => .exited code
    | .ok usage => .returned (onlyErr (some (errors_New (str "just show usage")))) g [usage]
  | .ok false =>
    match env.flagParse (env.Args.drop 1) g with
    | .error code => .exited code
    | .ok g =>
      if g.WantVersion then
        .returned (onlyErr (some (errors_New (str "just show version")))) g [ShowVersion]
      else
        let (info, e) := env.Stat g.HandlingPath
        if os_IsNotExist err then
          .returned (onlyErr e) g
            [.text (str "No such file or directory: " ++ g.HandlingPath ++ [10])]
        else
          let addr := g.ListeningAddr
          let g := { g with HandlingPath := env.AbsPathMust g.HandlingPath }
          match info with
          | none => .panicked .nilDereference
          | some info =>
            let dir := if info.isDir then g.HandlingPath else filepath_Dir g.HandlingPath
            let filename := if info.isDir then [] else filepath_Base g.HandlingPath
            if g.UrlPrefix ≠ [] then
              match trimUrlPrefix g.UrlPrefix with
              | .error p => .panicked p
              | .ok trimmed =>
                let g := { g with UrlPrefix := trimmed }
                let pfx := g.UrlPrefix
                .returned ⟨addr, dir, filename, pfx, formatUrl addr pfx filename, err⟩ g []
            else
              let pfx := filepath_Base dir
              .returned ⟨addr, dir, filename, pfx, formatUrl addr pfx filename, err⟩ g []

/-! ## Definitions used to state the properties -/

/-- The one-shot trimming in words: one leading `'/'` is removed if there is
one, then one trailing `'/'` is removed if the remainder ends with one. -/
def stripOnce (p : GoString) : GoString :=
  let q := if p.head? = some slash then p.tail else p
  if q.getLast? = some slash then q.dropLast else q

/-- The same surroundings, except that flag parsing leaves `s` in `Scheme`:
a command line that differs only in the value given to the scheme option. -/
def withScheme (env : Env) (s : GoString) : Env :=
  { env with
    flagParse := fun args g =>
      match env.flagParse args g with
      | .ok gp => .ok { gp with Scheme := s }
      | .error code => .error code }

/-- The same surroundings with another filesystem. -/
def withStat (env : Env) (stat : GoString → Option FileInfo × Option GoError) : Env :=
  { env with Stat := stat }

/-- A path element that `Clean` keeps: not empty, free of separators, and
neither `.` nor `..`. -/
def IsElem (s : GoString) : Prop :=
  s ≠ [] ∧ slash ∉ s ∧ s ≠ [dot] ∧ s ≠ [dot, dot]

/-- The elements, each preceded by a separator: `/a/b` for `a`, `b`. -/
def elemsBody : List GoString → GoString
  | [] => []
  | s :: rest => slash :: s ++ elemsBody rest

/-- The rooted path with the given elements; `/` when there are none. -/
def rootedPath (segs : List GoString) : GoString :=
  if segs = [] then [slash] else elemsBody segs

/-! ## A concrete machine for the examples -/

/-- A filesystem holding the directories `/`, `/opt/share0/releases` and the
regular file `/opt/share0/releases/notes.txt`; every other path is reported
missing, with no file info. -/
def demoStat (p : GoString) : Option FileInfo × Option GoError :=
  if p = str "/" ∨ p = str "/opt/share0/releases" then (some ⟨true⟩, none)
  else if p = str "/opt/share0/releases/notes.txt" then (some ⟨false⟩, none)
  else (none, some (.pathError (str "stat") p ENOENT))

/-- Variables before `InitArgs`: all zero values. -/
def zeroGlobals : Globals := ⟨false, false, [], [], [], []⟩

/-- A machine with the filesystem `demoStat`, home directory `/root`, a
standard output that accepts the usage text, on which
`flag.Parse` leaves the registered defaults overwritten by the given url
prefix, address and path, and by `version` for the version flag.
`AbsPathMust` cleans its argument, which is what `filepath.Abs` does to a path
that is already absolute. -/
def demoEnv (Args : List GoString) (urlPrefix address path : GoString) (version : Bool) : Env where
  Args := Args
  Stat := demoStat
  flagParse := fun _ g =>
    .ok { g with UrlPrefix := urlPrefix, ListeningAddr := address, HandlingPath := path,
                 WantVersion := version }
  Execute := fun _ _ _ _ => none
  AbsPathMust := filepath_Clean
  UserHomeDirMust := str "/root"

/-- The variables `flag.Parse` leaves on `demoEnv`, started from `InitArgs`. -/
def demoParsed (urlPrefix address path : GoString) (version : Bool) : Globals :=
  ⟨false, version, str "http", urlPrefix, path, address⟩

/-- Run on `-p /does/not/exist`. -/
def missingEnv : Env :=
  demoEnv [str "gofs", str "-p", str "/does/not/exist"] [] (str "127.0.0.1:8080")
    (str "/does/not/exist") false

/-- Run on `--url-prefix / -p /opt/share0/releases`. -/
def slashEnv : Env :=
  demoEnv [str "gofs", str "--url-prefix", str "/", str "-p", str "/opt/share0/releases"]
    (str "/") (str "127.0.0.1:8080") (str "/opt/share0/releases") false

/-- Run on `--url-prefix //share// -p /opt/share0/releases`. -/
def doubleSlashEnv : Env :=
  demoEnv [str "gofs", str "--url-prefix", str "//share//", str "-p", str "/opt/share0/releases"]
    (str "//share//") (str "127.0.0.1:8080") (str "/opt/share0/releases") false

/-- Run on `--url-prefix /share/ -p /opt/share0/releases`. -/
def shareEnv : Env :=
  demoEnv [str "gofs", str "--url-prefix", str "/share/", str "-p", str "/opt/share0/releases"]
    (str "/share/") (str "127.0.0.1:8080") (str "/opt/share0/releases") false

/-- Run on `--url-prefix share -p /opt/share0/releases`. -/
def bareShareEnv : Env :=
  demoEnv [str "gofs", str "--url-prefix", str "share", str "-p", str "/opt/share0/releases"]
    (str "share") (str "127.0.0.1:8080") (str "/opt/share0/releases") false

/-- Run on `-a 10.0.13.120:8080 -p /opt/share0/releases`. -/
def dirEnv : Env :=
  demoEnv [str "gofs", str "-a", str "10.0.13.120:8080", str "-p", str "/opt/share0/releases"]
    [] (str "10.0.13.120:8080") (str "/opt/share0/releases") false

/-- Run on
`--url-prefix /share/releases/ -a 10.0.13.120:8080 -p /opt/share0/releases/notes.txt`. -/
def fileEnv : Env :=
  demoEnv
    [str "gofs", str "--url-prefix", str "/share/releases/", str "-a", str "10.0.13.120:8080",
      str "-p", str "/opt/share0/releases/notes.txt"]
    (str "/share/releases/") (str "10.0.13.120:8080") (str "/opt/share0/releases/notes.txt") false

/-- Run on `-p /`. -/
def rootEnv : Env :=
  demoEnv [str "gofs", str "-p", str "/"] [] (str "127.0.0.1:8080") (str "/") false

/-- Run on `-v -a --help -p /does/not/exist`: a help token in the place of the
value of `-a`, next to a version flag and a missing path. -/
def helpEnv : Env :=
  demoEnv [str "gofs", str "-v", str "-a", str "--help", str "-p", str "/does/not/exist"]
    [] (str "--help") (str "/does/not/exist") true

/-- Run on `-v -p /does/not/exist`. -/
def versionEnv : Env :=
  demoEnv [str "gofs", str "-v", str "-p", str "/does/not/exist"]
    [] (str "127.0.0.1:8080") (str "/does/not/exist") true

/-- Run on `--url-prefix / -p /opt/share0/releases/notes.txt`. -/
def fileSlashEnv : Env :=
  demoEnv [str "gofs", str "--url-prefix", str "/", str "-p", str "/opt/share0/releases/notes.txt"]
    (str "/") (str "127.0.0.1:8080") (str "/opt/share0/releases/notes.txt") false

/-- Error number `ENOSPC`. -/
def ENOSPC : Nat := 28

/-- The same surroundings with a standard output that is full (`> /dev/full`):
executing the usage template fails with a write error. -/
def withFullStdout (env : Env) : Env :=
  { env with
    Execute := fun _ _ _ _ => some (.pathError (str "write") (str "/dev/stdout") ENOSPC) }

/-- Run on `-h` with standard output redirected to `/dev/full`. -/
def helpFullEnv : Env :=
  withFullStdout (demoEnv [str "gofs", str "-h"] [] (str "127.0.0.1:8080") (str "/root") false)

/-- Run on `--help -p /does/not/exist` with standard output redirected to
`/dev/full`. -/
def helpMissingFullEnv : Env :=
  withFullStdout
    (demoEnv [str "gofs", str "--help", str "-p", str "/does/not/exist"] []
      (str "127.0.0.1:8080") (str "/does/not/exist") false)

/-! ## Indexing and trimming -/

theorem index_zero_cons (c : Byte) (t : GoString) : index (c :: t) 0 = .ok c := by
  simp [index]

theorem index_last_ne_nil (q : GoString) (h : q ≠ []) :
    index q ((q.length : Int) - 1) = .ok (q.getLast h) := by
  have hlen : 0 < q.length := List.length_pos.mpr h
  have h1 : ¬ ((q.length : Int) - 1 < 0) := by omega
  have h2 : ((q.length : Int) - 1).toNat = q.length - 1 := by omega
  have h3 : q[q.length - 1]? = some (q.getLast h) := by
    rw [List.getLast_eq_getElem]
    exact List.getElem?_eq_getElem _
  simp [index, h1, h2, h3]

theorem index_nil_last :
    index ([] : GoString) (((([] : GoString).length : Nat) : Int) - 1)
      = .error (.indexOutOfRange (-1) 0) := by
  decide

theorem trimUrlPrefix_slash : trimUrlPrefix [slash] = .error (.indexOutOfRange (-1) 0) := by
  decide

theorem trimSecond (q : GoString) (h : q ≠ []) :
    (do
      let last ← index q ((q.length : Int) - 1)
      let r := if last = slash then q.take (q.length - 1) else q
      (pure r : Except Panic GoString)) =
    .ok (if q.getLast? = some slash then q.dropLast else q) := by
  rw [index_last_ne_nil q h, List.getLast?_eq_getLast _ h]
  by_cases hl : q.getLast h = slash
  · simp [hl, List.dropLast_eq_take, bind, Except.bind, pure, Except.pure]
  · simp [hl, bind, Except.bind, pure, Except.pure]

theorem trimUrlPrefix_ok (p : GoString) (hne : p ≠ []) (hs : p ≠ [slash]) :
    trimUrlPrefix p = .ok (stripOnce p) := by
  cases p with
  | nil => exact absurd rfl hne
  | cons c t =>
    by_cases hc : c = slash
    · subst hc
      have ht : t ≠ [] := fun h => hs (by rw [h])
      have := trimSecond t ht
      simpa [trimUrlPrefix, index_zero_cons, bind, Except.bind, stripOnce, pure, Except.pure] using this
    · have hct : c :: t ≠ [] := by simp
      have := trimSecond (c :: t) hct
      simpa [trimUrlPrefix, index_zero_cons, bind, Except.bind, stripOnce, pure, Except.pure, hc] using this

theorem twoSlash_prefix_cons (a : Byte) (t : GoString) :
    [slash, slash] <+: a :: t ↔ a = slash ∧ t.head? = some slash := by
  cases t with
  | nil => simp [List.cons_prefix_cons]
  | cons b u =>
    simp [List.cons_prefix_cons]
    constructor
    · rintro ⟨h1, h2⟩; exact ⟨h1.symm, h2.symm⟩
    · rintro ⟨h1, h2⟩; exact ⟨h1.symm, h2.symm⟩

theorem twoSlash_suffix_concat (t : GoString) (b : Byte) :
    [slash, slash] <:+ t ++ [b] ↔ b = slash ∧ t.getLast? = some slash := by
  rw [← List.reverse_prefix]
  simp only [List.reverse_cons, List.reverse_nil, List.nil_append, List.singleton_append,
    List.reverse_append]
  rw [twoSlash_prefix_cons]
  simp [List.head?_reverse]

theorem getLast?_cons_concat (a b : Byte) (mid : GoString) :
    (a :: (mid ++ [b])).getLast? = some b := List.getLast?_concat (a :: mid)

theorem dropLast_cons_concat (a b : Byte) (mid : GoString) :
    (a :: (mid ++ [b])).dropLast = a :: mid := @List.dropLast_concat _ (a :: mid) b

theorem stripOnce_cons_concat (a b : Byte) (mid : GoString) :
    stripOnce (a :: (mid ++ [b])) =
      if a = slash then (if b = slash then mid else mid ++ [b])
      else (if b = slash then a :: mid else a :: (mid ++ [b])) := by
  by_cases ha : a = slash <;> by_cases hb : b = slash <;>
    simp only [stripOnce, List.head?_cons, List.tail_cons, ha, hb, List.getLast?_concat,
      getLast?_cons_concat, List.dropLast_concat, dropLast_cons_concat,
      Option.some.injEq, if_true, if_false]

theorem stripOnce_edges (p : GoString) (hne : p ≠ []) (hs : p ≠ [slash]) :
    ((stripOnce p).head? ≠ some slash ∧ (stripOnce p).getLast? ≠ some slash) ↔
      (p = [slash, slash] ∨ (¬ [slash, slash] <+: p ∧ ¬ [slash, slash] <:+ p)) := by
  cases p with
  | nil => exact absurd rfl hne
  | cons a t =>
    rcases List.eq_nil_or_concat t with rfl | ⟨mid, b, rfl⟩
    · have ha : a ≠ slash := fun h => hs (by rw [h])
      have h1 : ¬ [slash, slash] <+: [a] := by
        rw [twoSlash_prefix_cons]; simp
      have h2 : ¬ [slash, slash] <:+ [a] := by
        have := twoSlash_suffix_concat [] a
        simp only [List.nil_append] at this
        rw [this]; simp
      simp [stripOnce, ha, h1, h2]
    · simp only [List.concat_eq_append] at hs ⊢
      have hP := twoSlash_prefix_cons a (mid ++ [b])
      have hS : [slash, slash] <:+ a :: (mid ++ [b]) ↔
          b = slash ∧ (a :: mid).getLast? = some slash :=
        twoSlash_suffix_concat (a :: mid) b
      have hl := getLast?_cons_concat a b mid
      have hl1 : (mid ++ [b]).getLast? = some b := List.getLast?_concat mid
      have hEq : a :: (mid ++ [b]) = [slash, slash] ↔ a = slash ∧ b = slash ∧ mid = [] := by
        constructor
        · intro h
          have h1 := (List.cons.inj h).1
          have h2 : mid ++ [b] = [] ++ [slash] := (List.cons.inj h).2
          have h3 := List.append_inj_left' h2 rfl
          have h4 := List.append_inj_right' h2 rfl
          exact ⟨h1, (List.cons.inj h4).1, h3⟩
        · rintro ⟨rfl, rfl, rfl⟩; rfl
      rw [hP, hS, hEq, stripOnce_cons_concat]
      by_cases ha : a = slash <;> by_cases hb : b = slash
      · subst ha; subst hb
        simp only [if_true, true_and]
        cases mid with
        | nil => simp
        | cons x m => simp [List.getLast?_cons_cons]
      · subst ha
        rw [if_pos rfl, if_neg hb, hl1]
        constructor
        · rintro ⟨h1, _⟩
          exact Or.inr ⟨fun h => h1 h.2, fun h => hb h.1⟩
        · rintro (h | ⟨h1, _⟩)
          · exact absurd h.2.1 hb
          · exact ⟨fun h => h1 ⟨rfl, h⟩, fun h => hb (Option.some.inj h)⟩
      · subst hb
        simp [ha]
      · rw [if_neg ha, if_neg hb, hl]
        constructor
        · intro _
          exact Or.inr ⟨fun h => ha h.1, fun h => hb h.1⟩
        · intro _
          exact ⟨fun h => ha (Option.some.inj (by simpa using h)),
            fun h => hb (Option.some.inj h)⟩

/-! ## The paths through `ParseArgs` -/

theorem WantUsage_cons (prog : GoString) (rest : List GoString) :
    WantUsage (prog :: rest) = .ok (rest.any (fun arg => decide (arg ∈ helpArgs))) := rfl

theorem mem_helpArgs (arg : GoString) :
    arg ∈ helpArgs ↔
      arg = str "-h" ∨ arg = str "--h" ∨ arg = str "-help" ∨ arg = str "--help" := by
  simp [helpArgs]

theorem ParseArgs_help (env : Env) (g : Globals) (prog : GoString) (rest : List GoString)
    (hA : env.Args = prog :: rest) (hU : WantUsage env.Args = .ok true)
    (hX : env.Execute prog (str "http") (str "127.0.0.1:8080") env.UserHomeDirMust = none) :
    ParseArgs env g =
      .returned ⟨[], [], [], [], [], some (errors_New (str "just show usage"))⟩ g
        [.usage prog (str "http") (str "127.0.0.1:8080") env.UserHomeDirMust] := by
  rw [hA] at hU
  simp only [ParseArgs, hA, hU, ShowUsage, hX, onlyErr]

theorem ParseArgs_help_fatal (env : Env) (g : Globals) (prog : GoString) (rest : List GoString)
    (e : GoError)
    (hA : env.Args = prog :: rest) (hU : WantUsage env.Args = .ok true)
    (hX : env.Execute prog (str "http") (str "127.0.0.1:8080") env.UserHomeDirMust = some e) :
    ParseArgs env g = .exited 1 := by
  rw [hA] at hU
  simp only [ParseArgs, hA, hU, ShowUsage, hX]

/-- On a run with no help token, a successful parse, the version flag unset
and file info from `os.Stat`, `ParseArgs` is the code from line 129 on. -/
theorem ParseArgs_existing (env : Env) (g gp : Globals) (info : FileInfo) (e : Option GoError)
    (hU : WantUsage env.Args = .ok false)
    (hP : env.flagParse (env.Args.drop 1) g = .ok gp)
    (hV : gp.WantVersion = false)
    (hS : env.Stat gp.HandlingPath = (some info, e)) :
    ParseArgs env g =
      if gp.UrlPrefix ≠ [] then
        match trimUrlPrefix gp.UrlPrefix with
        | .error p => .panicked p
        | .ok t =>
          .returned
            ⟨gp.ListeningAddr,
              if info.isDir then env.AbsPathMust gp.HandlingPath
              else filepath_Dir (env.AbsPathMust gp.HandlingPath),
              if info.isDir then [] else filepath_Base (env.AbsPathMust gp.HandlingPath),
              t,
              formatUrl gp.ListeningAddr t
                (if info.isDir then [] else filepath_Base (env.AbsPathMust gp.HandlingPath)),
              none⟩
            { gp with HandlingPath := env.AbsPathMust gp.HandlingPath, UrlPrefix := t } []
      else
        .returned
          ⟨gp.ListeningAddr,
            if info.isDir then env.AbsPathMust gp.HandlingPath
            else filepath_Dir (env.AbsPathMust gp.HandlingPath),
            if info.isDir then [] else filepath_Base (env.AbsPathMust gp.HandlingPath),
            filepath_Base (if info.isDir then env.AbsPathMust gp.HandlingPath
              else filepath_Dir (env.AbsPathMust gp.HandlingPath)),
            formatUrl gp.ListeningAddr
              (filepath_Base (if info.isDir then env.AbsPathMust gp.HandlingPath
                else filepath_Dir (env.AbsPathMust gp.HandlingPath)))
              (if info.isDir then [] else filepath_Base (env.AbsPathMust gp.HandlingPath)),
            none⟩
          { gp with HandlingPath := env.AbsPathMust gp.HandlingPath } [] := by
  simp only [ParseArgs, hU, hP, hV, hS, os_IsNotExist]
  simp

theorem ParseArgs_missing (env : Env) (g gp : Globals) (e : Option GoError)
    (hU : WantUsage env.Args = .ok false)
    (hP : env.flagParse (env.Args.drop 1) g = .ok gp)
    (hV : gp.WantVersion = false)
    (hS : env.Stat gp.HandlingPath = (none, e)) :
    ParseArgs env g = .panicked .nilDereference := by
  simp only [ParseArgs, hU, hP, hV, hS, os_IsNotExist]
  simp

theorem ParseArgs_directory (env : Env) (g gp : Globals) (info : FileInfo)
    (hU : WantUsage env.Args = .ok false)
    (hP : env.flagParse (env.Args.drop 1) g = .ok gp)
    (hV : gp.WantVersion = false)
    (hS : env.Stat gp.HandlingPath = (some info, none))
    (hD : info.isDir = true)
    (hp : gp.UrlPrefix = []) :
    ParseArgs env g =
      .returned
        ⟨gp.ListeningAddr, env.AbsPathMust gp.HandlingPath, [],
          filepath_Base (env.AbsPathMust gp.HandlingPath),
          formatUrl gp.ListeningAddr (filepath_Base (env.AbsPathMust gp.HandlingPath)) [],
          none⟩
        { gp with HandlingPath := env.AbsPathMust gp.HandlingPath } [] := by
  rw [ParseArgs_existing env g gp info none hU hP hV hS]
  simp [hp, hD]

theorem formatUrl_eq (addr pfx filename : GoString) :
    formatUrl addr pfx filename
      = str "http://" ++ addr ++ str "/" ++ pfx ++ str "/" ++ filename := by
  have hH : str "http" ++ str "://" = str "http://" := by decide
  simp only [formatUrl, hH]

/-- A run that returns with a nil error went through flag parsing with the
version flag unset and got file info from `os.Stat`. -/
theorem success_inv (env : Env) (g gf : Globals) (r : Results) (out : List Output)
    (hR : ParseArgs env g = .returned r gf out) (hok : r.err = none) :
    ∃ gp info e, WantUsage env.Args = .ok false ∧
      env.flagParse (env.Args.drop 1) g = .ok gp ∧ gp.WantVersion = false ∧
      env.Stat gp.HandlingPath = (some info, e) := by
  cases hU : WantUsage env.Args with
  | error p => simp [ParseArgs, hU] at hR
  | ok b =>
    cases b with
    | true =>
      simp only [ParseArgs, hU] at hR
      cases hSU : ShowUsage env with
      | error a => cases a <;> simp [hSU] at hR
      | ok u =>
        simp only [hSU, Outcome.returned.injEq] at hR
        rw [← hR.1] at hok
        simp [onlyErr] at hok
    | false =>
      cases hP : env.flagParse (env.Args.drop 1) g with
      | error code =>
        simp only [ParseArgs, hU, hP] at hR
        cases hR
      | ok gp =>
        cases hV : gp.WantVersion with
        | true =>
          simp only [ParseArgs, hU, hP, hV, if_true, Outcome.returned.injEq] at hR
          rw [← hR.1] at hok
          simp [onlyErr] at hok
        | false =>
          rcases hS : env.Stat gp.HandlingPath with ⟨info, e⟩
          cases info with
          | none =>
            rw [ParseArgs_missing env g gp e hU hP hV hS] at hR
            cases hR
          | some info => exact ⟨gp, info, e, rfl, rfl, hV, hS⟩

/-! ## `filepath.Clean`: the bound on the turns is never reached -/

theorem cleanLoop_nil (rooted : Bool) (fuel : Nat) (out : GoString) (dotdot : Nat) :
    cleanLoop rooted fuel [] out dotdot = out := by
  cases fuel <;> rfl

theorem cleanLoop_slash (rooted : Bool) (fuel : Nat) (rest out : GoString) (dotdot : Nat) :
    cleanLoop rooted (fuel + 1) (slash :: rest) out dotdot
      = cleanLoop rooted fuel rest out dotdot := by
  rw [cleanLoop, if_pos rfl]

/-- The loop never stops for lack of turns: with at least as many turns as
unread bytes, the result does not depend on the bound. -/
theorem cleanLoop_fuel (rooted : Bool) (n : Nat) :
    ∀ (rest : GoString), rest.length ≤ n →
      ∀ (f1 f2 : Nat) (out : GoString) (dotdot : Nat), rest.length ≤ f1 → rest.length ≤ f2 →
        cleanLoop rooted f1 rest out dotdot = cleanLoop rooted f2 rest out dotdot := by
  induction n with
  | zero =>
    intro rest hn f1 f2 out dotdot _ _
    have : rest = [] := List.length_eq_zero.mp (Nat.le_zero.mp hn)
    subst this
    rw [cleanLoop_nil, cleanLoop_nil]
  | succ n ih =>
    intro rest hn f1 f2 out dotdot h1 h2
    cases rest with
    | nil => rw [cleanLoop_nil, cleanLoop_nil]
    | cons c t =>
      simp only [List.length_cons] at hn h1 h2
      cases f1 with
      | zero => omega
      | succ f1 =>
        cases f2 with
        | zero => omega
        | succ f2 =>
          have ht : t.tail.length ≤ t.length := by simp
          rw [cleanLoop, cleanLoop]
          by_cases hc : c = slash
          · rw [if_pos hc, if_pos hc]
            exact ih t (by omega) f1 f2 out dotdot (by omega) (by omega)
          · rw [if_neg hc, if_neg hc]
            by_cases h2c : c = dot ∧ (t = [] ∨ t.head? = some slash)
            · rw [if_pos h2c, if_pos h2c]
              exact ih t (by omega) f1 f2 out dotdot (by omega) (by omega)
            · rw [if_neg h2c, if_neg h2c]
              by_cases h3c : c = dot ∧ t.head? = some dot ∧
                  (t.tail = [] ∨ t.tail.head? = some slash)
              · rw [if_pos h3c, if_pos h3c]
                split
                · exact ih t.tail (by omega) f1 f2 _ dotdot (by omega) (by omega)
                · split
                  · exact ih t.tail (by omega) f1 f2 _ _ (by omega) (by omega)
                  · exact ih t.tail (by omega) f1 f2 _ dotdot (by omega) (by omega)
              · rw [if_neg h3c, if_neg h3c]
                have hcp : (fun b => b != slash) c = true := by simpa using hc
                have hd : ((c :: t).dropWhile (fun b => b != slash)).length ≤ t.length := by
                  rw [List.dropWhile_cons_of_pos (p := fun b => b != slash) hcp]
                  exact (List.dropWhile_sublist _).length_le
                exact ih _ (by omega) f1 f2 _ dotdot (by omega) (by omega)

/-! ## `filepath.Clean` on rooted paths of kept elements -/

theorem elemsBody_append (xs ys : List GoString) :
    elemsBody (xs ++ ys) = elemsBody xs ++ elemsBody ys := by
  induction xs with
  | nil => rfl
  | cons s rest ih => simp [elemsBody, ih]

theorem elemsBody_concat (xs : List GoString) (s : GoString) :
    elemsBody (xs ++ [s]) = elemsBody xs ++ slash :: s := by
  rw [elemsBody_append]; simp [elemsBody]

theorem rootedPath_nil : rootedPath [] = [slash] := rfl

theorem rootedPath_concat (xs : List GoString) (s : GoString) :
    rootedPath (xs ++ [s]) = elemsBody xs ++ slash :: s := by
  simp [rootedPath, elemsBody_concat]

theorem elemsBody_length_ge (xs : List GoString) (h : xs ≠ []) (hne : ∀ s ∈ xs, s ≠ []) :
    2 ≤ (elemsBody xs).length := by
  cases xs with
  | nil => exact absurd rfl h
  | cons s rest =>
    have : s ≠ [] := hne s (List.mem_cons_self _ _)
    have hl : 0 < s.length := List.length_pos.mpr this
    simp [elemsBody]
    omega

theorem rootedPath_length_eq_one (xs : List GoString) (hne : ∀ s ∈ xs, s ≠ []) :
    (rootedPath xs).length = 1 ↔ xs = [] := by
  constructor
  · intro h
    by_contra hx
    have := elemsBody_length_ge xs hx hne
    simp [rootedPath, hx] at h
    omega
  · rintro rfl; rfl

/-- Appending one element to the written output, as the copy step does. -/
theorem rootedPath_push (xs : List GoString) (s : GoString) (hne : ∀ t ∈ xs, t ≠ []) :
    (if (true && (rootedPath xs).length != 1) || (!true && (rootedPath xs).length != 0)
      then rootedPath xs ++ [slash] else rootedPath xs) ++ s = rootedPath (xs ++ [s]) := by
  rw [rootedPath_concat]
  by_cases hx : xs = []
  · subst hx; simp [rootedPath, elemsBody]
  · have h1 : (rootedPath xs).length ≠ 1 := fun h => hx ((rootedPath_length_eq_one xs hne).mp h)
    have h2 : rootedPath xs = elemsBody xs := by simp [rootedPath, hx]
    rw [h2] at h1 ⊢
    simp [h1]

theorem IsElem.ne_nil {s : GoString} (h : IsElem s) : s ≠ [] := h.1

theorem takeWhile_notSlash_elem (s rest : GoString) (hs : slash ∉ s)
    (hr : rest = [] ∨ rest.head? = some slash) :
    (s ++ rest).takeWhile (fun b => b != slash) = s ∧
    (s ++ rest).dropWhile (fun b => b != slash) = rest := by
  have hp : ∀ a ∈ s, (fun b => b != slash) a = true := by
    intro a ha
    have : a ≠ slash := fun h => hs (h ▸ ha)
    simpa using this
  rw [List.takeWhile_append_of_pos hp, List.dropWhile_append_of_pos hp]
  rcases hr with rfl | hr
  · simp
  · cases rest with
    | nil => simp at hr
    | cons b u =>
      have hb : b = slash := by simpa using hr
      subst hb
      simp

/-- One turn of the loop on an element that `Clean` keeps. -/
theorem cleanLoop_elem (fuel : Nat) (s rest : GoString) (done : List GoString)
    (hs : IsElem s) (hd : ∀ t ∈ done, t ≠ [])
    (hr : rest = [] ∨ rest.head? = some slash) :
    cleanLoop true (fuel + 1) (s ++ rest) (rootedPath done) 1
      = cleanLoop true fuel rest (rootedPath (done ++ [s])) 1 := by
  obtain ⟨hne, hns, hd1, hd2⟩ := hs
  obtain ⟨htw, hdw⟩ := takeWhile_notSlash_elem s rest hns hr
  cases s with
  | nil => exact absurd rfl hne
  | cons c s1 =>
    have hc : c ≠ slash := fun h => hns (h ▸ List.mem_cons_self _ _)
    have h2 : ¬ (c = dot ∧ (s1 ++ rest = [] ∨ (s1 ++ rest).head? = some slash)) := by
      rintro ⟨rfl, h⟩
      cases s1 with
      | nil => exact hd1 rfl
      | cons d s2 =>
        have hd' : d ≠ slash := fun h => hns (h ▸ by simp)
        rcases h with h | h
        · simp at h
        · exact hd' (by simpa using h)
    have h3 : ¬ (c = dot ∧ (s1 ++ rest).head? = some dot ∧
        ((s1 ++ rest).tail = [] ∨ (s1 ++ rest).tail.head? = some slash)) := by
      rintro ⟨rfl, h, h'⟩
      cases s1 with
      | nil =>
        rcases hr with rfl | hr
        · simp at h
        · simp only [List.nil_append] at h
          rw [hr] at h
          exact absurd (Option.some.inj h) (by decide)
      | cons d s2 =>
        have hdd : d = dot := by simpa using h
        subst hdd
        cases s2 with
        | nil => exact hd2 rfl
        | cons e s3 =>
          have he : e ≠ slash := fun h => hns (h ▸ by simp)
          rcases h' with h' | h'
          · simp at h'
          · exact he (by simpa using h')
    have hcons : (c :: s1) ++ rest = c :: (s1 ++ rest) := rfl
    rw [hcons, cleanLoop, if_neg hc, if_neg h2, if_neg h3]
    simp only []
    rw [← hcons, htw, hdw, rootedPath_push done (c :: s1) hd]

theorem cleanLoop_tail (fuel : Nat) (tail out : GoString)
    (ht : tail = [] ∨ tail = [slash]) (hf : tail.length ≤ fuel) :
    cleanLoop true fuel tail out 1 = out := by
  rcases ht with rfl | rfl
  · exact cleanLoop_nil _ _ _ _
  · cases fuel with
    | zero => simp at hf
    | succ f => rw [cleanLoop_slash, cleanLoop_nil]

/-- The loop run on elements that `Clean` keeps, separated by single
separators and followed by at most one separator, appends them to the output. -/
theorem cleanLoop_elems (more : List GoString) :
    ∀ (s : GoString) (done : List GoString) (fuel : Nat) (tail : GoString),
      IsElem s → (∀ t ∈ more, IsElem t) → (∀ t ∈ done, t ≠ []) →
      (tail = [] ∨ tail = [slash]) →
      (s ++ (elemsBody more ++ tail)).length ≤ fuel →
      cleanLoop true fuel (s ++ (elemsBody more ++ tail)) (rootedPath done) 1
        = rootedPath (done ++ s :: more) := by
  induction more with
  | nil =>
    intro s done fuel tail hs _ hd ht hf
    have hsl : 0 < s.length := List.length_pos.mpr hs.1
    simp only [elemsBody, List.nil_append, List.length_append] at hf ⊢
    cases fuel with
    | zero => omega
    | succ f =>
      have hr : tail = [] ∨ tail.head? = some slash := by
        rcases ht with rfl | rfl
        · exact Or.inl rfl
        · exact Or.inr rfl
      rw [cleanLoop_elem f s tail done hs hd hr, cleanLoop_tail f tail _ ht (by omega)]
  | cons s2 more ih =>
    intro s done fuel tail hs hm hd ht hf
    have hsl : 0 < s.length := List.length_pos.mpr hs.1
    have hX : elemsBody (s2 :: more) ++ tail = slash :: (s2 ++ (elemsBody more ++ tail)) := by
      simp [elemsBody]
    rw [hX] at hf ⊢
    simp only [List.length_append, List.length_cons] at hf
    cases fuel with
    | zero => omega
    | succ f =>
      rw [cleanLoop_elem f s (slash :: (s2 ++ (elemsBody more ++ tail))) done hs hd (Or.inr rfl)]
      cases f with
      | zero => omega
      | succ f2 =>
        rw [cleanLoop_slash]
        have hd2 : ∀ t ∈ done ++ [s], t ≠ [] := by
          intro t ht2
          rcases List.mem_append.mp ht2 with h | h
          · exact hd t h
          · rw [List.mem_singleton.mp h]; exact hs.1
        rw [ih s2 (done ++ [s]) f2 tail (hm s2 (List.mem_cons_self _ _))
          (fun t ht2 => hm t (List.mem_cons_of_mem _ ht2)) hd2 ht
          (by simp only [List.length_append]; omega)]
        simp

/-- `Clean` leaves a rooted path of kept elements as it is, and removes one
trailing separator. -/
theorem Clean_rootedPath (segs : List GoString) (hs : ∀ t ∈ segs, IsElem t)
    (tail : GoString) (ht : tail = [] ∨ tail = [slash]) :
    filepath_Clean (rootedPath segs ++ tail) = rootedPath segs := by
  cases segs with
  | nil =>
    rcases ht with rfl | rfl <;> decide
  | cons s more =>
    have hform : rootedPath (s :: more) ++ tail = slash :: (s ++ (elemsBody more ++ tail)) := by
      simp [rootedPath, elemsBody]
    rw [hform]
    have hloop := cleanLoop_elems more s [] (slash :: (s ++ (elemsBody more ++ tail))).length tail
      (hs s (List.mem_cons_self _ _)) (fun t h => hs t (List.mem_cons_of_mem _ h))
      (by simp) ht (by simp)
    have hres : rootedPath ([] ++ s :: more) ≠ [] := by simp [rootedPath, elemsBody]
    simp only [filepath_Clean, List.head?_cons, beq_self_eq_true, if_true, List.drop_one,
      List.tail_cons, rootedPath_nil] at hloop ⊢
    rw [if_neg (by simp), hloop, if_neg hres]
    simp

/-! ## `Base`, `Dir` and `Join` on rooted paths -/

theorem rtakeWhile_after (p : Byte → Bool) (ys l : GoString) (y : Byte)
    (hy : p y = false) (hl : ∀ b ∈ l, p b = true) :
    (ys ++ y :: l).rtakeWhile p = l ∧ (ys ++ y :: l).rdropWhile p = ys ++ [y] := by
  have hr : ∀ b ∈ l.reverse, p b = true := fun b hb => hl b (List.mem_reverse.mp hb)
  have e : (ys ++ y :: l).reverse = l.reverse ++ y :: ys.reverse := by simp
  constructor
  · rw [List.rtakeWhile, e, List.takeWhile_append_of_pos hr,
      List.takeWhile_cons_of_neg (by simp [hy])]
    simp
  · rw [List.rdropWhile, e, List.dropWhile_append_of_pos hr,
      List.dropWhile_cons_of_neg (by simp [hy])]
    simp

theorem notSlash_of_not_mem (l : GoString) (h : slash ∉ l) :
    ∀ b ∈ l, (fun b => b != slash) b = true := by
  intro b hb
  have : b ≠ slash := fun e => h (e ▸ hb)
  simpa using this

theorem Base_elem (ys last : GoString) (hl : IsElem last) :
    filepath_Base (ys ++ slash :: last) = last := by
  obtain ⟨hne, hns, _, _⟩ := hl
  have h0 : ys ++ slash :: last ≠ [] := by simp
  have h1 : (ys ++ slash :: last).rdropWhile (fun b => b == slash) = ys ++ slash :: last := by
    rcases List.eq_nil_or_concat last with h | ⟨l2, z, h⟩
    · exact absurd h hne
    · subst h
      have hz : z ≠ slash := fun e => hns (by simp [e])
      have e2 : ys ++ slash :: (l2.concat z) = (ys ++ slash :: l2) ++ [z] := by simp
      rw [e2, List.rdropWhile_concat]
      simp [hz]
  have h2 := (rtakeWhile_after (fun b => b != slash) ys last slash (by simp)
    (notSlash_of_not_mem last hns)).1
  simp only [filepath_Base, if_neg h0, h1, h2, if_neg hne]

theorem Dir_elem (init : List GoString) (last : GoString)
    (hi : ∀ t ∈ init, IsElem t) (hl : IsElem last) :
    filepath_Dir (rootedPath (init ++ [last])) = rootedPath init := by
  have h2 := (rtakeWhile_after (fun b => b != slash) (elemsBody init) last slash (by simp)
    (notSlash_of_not_mem last hl.2.1)).2
  rw [filepath_Dir, rootedPath_concat, h2]
  by_cases hx : init = []
  · subst hx; decide
  · have := Clean_rootedPath init hi [slash] (Or.inr rfl)
    simpa [rootedPath, hx] using this

theorem Base_rootedPath (init : List GoString) (last : GoString) (hl : IsElem last) :
    filepath_Base (rootedPath (init ++ [last])) = last := by
  rw [rootedPath_concat]; exact Base_elem _ _ hl

theorem Join_rootedPath (init : List GoString) (last : GoString)
    (hi : ∀ t ∈ init, IsElem t) (hl : IsElem last) :
    filepath_Join [rootedPath init, last] = rootedPath (init ++ [last]) := by
  have hne : rootedPath init ≠ [] := by
    by_cases hx : init = []
    · subst hx; simp [rootedPath]
    · cases init with
      | nil => exact absurd rfl hx
      | cons s more => simp [rootedPath, elemsBody]
  have hall : ∀ t ∈ init ++ [last], IsElem t := by
    intro t ht
    rcases List.mem_append.mp ht with h | h
    · exact hi t h
    · rw [List.mem_singleton.mp h]; exact hl
  have hj : List.intercalate [slash] [rootedPath init, last] = rootedPath init ++ slash :: last := by
    simp [List.intercalate]
  rw [filepath_Join, if_pos hne, hj]
  by_cases hx : init = []
  · subst hx
    have hloop := cleanLoop_elems [] last [] last.length [] hl (by simp) (by simp) (Or.inl rfl)
      (by simp [elemsBody])
    simp only [elemsBody, List.append_nil, List.nil_append] at hloop
    have hres : rootedPath [last] ≠ [] := by simp [rootedPath, elemsBody]
    simp only [rootedPath_nil, List.singleton_append, filepath_Clean, List.head?_cons,
      beq_self_eq_true, if_true, List.drop_one, List.tail_cons, List.length_cons, List.nil_append]
    rw [if_neg (by simp), cleanLoop_slash, ← rootedPath_nil]
    have hfuel := cleanLoop_elems [] last [] (last.length + 1) [] hl (by simp) (by simp)
      (Or.inl rfl) (by simp [elemsBody])
    simp only [elemsBody, List.append_nil, List.nil_append] at hfuel
    rw [hfuel, if_neg hres]
  · have h1 : rootedPath init ++ slash :: last = rootedPath (init ++ [last]) ++ [] := by
      rw [rootedPath_concat]; simp [rootedPath, hx]
    rw [h1]
    exact Clean_rootedPath (init ++ [last]) hall [] (Or.inl rfl)

/-- The base name of a path that is not made of separators only contains no
separator and is not empty. -/
theorem Base_no_slash (path : GoString) (h : ∃ b ∈ path, b ≠ slash) :
    slash ∉ filepath_Base path ∧ filepath_Base path ≠ [] := by
  obtain ⟨b, hb, hbs⟩ := h
  have h0 : path ≠ [] := List.ne_nil_of_mem hb
  have hmem : ∀ l : GoString, slash ∉ l.rtakeWhile (fun b => b != slash) := by
    intro l hm
    rw [List.rtakeWhile, List.mem_reverse] at hm
    have := List.mem_takeWhile_imp hm
    simp at this
  simp only [filepath_Base, if_neg h0]
  split
  · rename_i hnil
    exfalso
    -- the stripped path ends with a byte other than the separator
    have hstrip : path.rdropWhile (fun b => b == slash) ≠ [] := by
      intro he
      have hall := List.rdropWhile_eq_nil_iff.mp he
      have := hall b hb
      exact hbs (by simpa using this)
    rcases List.eq_nil_or_concat (path.rdropWhile (fun b => b == slash)) with he | ⟨l2, z, he⟩
    · exact hstrip he
    · have hz : ¬ ((fun b => b == slash) z = true) := by
        have := List.rdropWhile_last_not (fun b => b == slash) path hstrip
        simp only [he, List.concat_eq_append] at this
        rwa [List.getLast_append_singleton] at this
      rw [he, List.concat_eq_append, List.rtakeWhile_concat] at hnil
      have hz2 : (fun b => b != slash) z = true := by simpa using hz
      rw [if_pos hz2] at hnil
      simp at hnil
  · rename_i hne
    exact ⟨hmem _, hne⟩

/-! ## The output of `Clean` on a rooted path -/

theorem backtrackRev_to_root (l : GoString) (hne : l ≠ []) (hns : slash ∉ l) :
    backtrackRev (l ++ [slash]) 1 = [slash] := by
  induction l with
  | nil => exact absurd rfl hne
  | cons b l ih =>
    have hb : b ≠ slash := fun e => hns (by simp [e])
    cases l with
    | nil => simp [backtrackRev]
    | cons b2 l2 =>
      have hns2 : slash ∉ b2 :: l2 := fun h => hns (List.mem_cons_of_mem _ h)
      have hlen : ((b2 :: l2) ++ [slash]).length > 1 := by simp
      rw [List.cons_append, backtrackRev, if_pos ⟨hlen, hb⟩]
      exact ih (by simp) hns2

theorem backtrackRev_to_slash (l T : GoString) (hns : slash ∉ l) (hT : T ≠ []) :
    backtrackRev (l ++ slash :: T) 1 = T := by
  induction l with
  | nil => simp [backtrackRev]
  | cons b l ih =>
    have hb : b ≠ slash := fun e => hns (by simp [e])
    have hns2 : slash ∉ l := fun h => hns (List.mem_cons_of_mem _ h)
    have hTl : 0 < T.length := List.length_pos.mpr hT
    have hlen : (l ++ slash :: T).length > 1 := by
      simp only [List.length_append, List.length_cons]; omega
    rw [List.cons_append, backtrackRev, if_pos ⟨hlen, hb⟩]
    exact ih hns2

/-- At a `..` element the last kept element is removed. -/
theorem backtrack_rootedPath (init : List GoString) (last : GoString)
    (hi : ∀ t ∈ init, t ≠ []) (hl : IsElem last) :
    (backtrackRev (rootedPath (init ++ [last])).reverse 1).reverse = rootedPath init := by
  have hrev : (rootedPath (init ++ [last])).reverse
      = last.reverse ++ slash :: (elemsBody init).reverse := by
    rw [rootedPath_concat]; simp
  have hne : last.reverse ≠ [] := by simpa using hl.1
  have hns : slash ∉ last.reverse := by simpa using hl.2.1
  rw [hrev]
  by_cases hx : init = []
  · subst hx
    simp only [elemsBody, List.reverse_nil]
    rw [backtrackRev_to_root _ hne hns]
    rfl
  · have hlen := elemsBody_length_ge init hx hi
    have hT : (elemsBody init).reverse ≠ [] := by
      intro h
      have h0 : elemsBody init = [] := List.reverse_eq_nil_iff.mp h
      rw [h0] at hlen
      simp at hlen
    rw [backtrackRev_to_slash _ _ hns hT]
    simp [rootedPath, hx]

theorem takeWhile_eq_nil (p : Byte → Bool) (l : GoString) (h : l.takeWhile p = []) :
    l = [] ∨ ∃ b u, l = b :: u ∧ p b = false := by
  cases l with
  | nil => exact Or.inl rfl
  | cons b u =>
    refine Or.inr ⟨b, u, rfl, ?_⟩
    by_contra hb
    have hb2 : p b = true := by simpa using hb
    rw [List.takeWhile_cons_of_pos hb2] at h
    cases h

/-- The bytes copied by the last case of the loop form a kept element. -/
theorem copied_isElem (c : Byte) (rest : GoString) (hc : c ≠ slash)
    (h2 : ¬ (c = dot ∧ (rest = [] ∨ rest.head? = some slash)))
    (h3 : ¬ (c = dot ∧ rest.head? = some dot ∧
        (rest.tail = [] ∨ rest.tail.head? = some slash))) :
    IsElem ((c :: rest).takeWhile (fun b => b != slash)) := by
  have hcp : (fun b => b != slash) c = true := by simpa using hc
  rw [List.takeWhile_cons_of_pos (p := fun b => b != slash) hcp]
  have hslash : ∀ b : Byte, (fun b => b != slash) b = false → b = slash := by
    intro b hb; simpa using hb
  refine ⟨by simp, ?_, ?_, ?_⟩
  · intro hm
    rcases List.mem_cons.mp hm with h | h
    · exact hc h.symm
    · have := List.mem_takeWhile_imp h
      simp at this
  · intro h
    have hcd : c = dot := (List.cons.inj h).1
    have ht := (List.cons.inj h).2
    apply h2
    refine ⟨hcd, ?_⟩
    rcases takeWhile_eq_nil _ _ ht with h | ⟨b, u, h, hb⟩
    · exact Or.inl h
    · right; rw [h, hslash b hb]; rfl
  · intro h
    have hcd : c = dot := (List.cons.inj h).1
    have ht := (List.cons.inj h).2
    apply h3
    refine ⟨hcd, ?_⟩
    cases rest with
    | nil => simp at ht
    | cons d u =>
      by_cases hd : (fun b => b != slash) d = true
      · rw [List.takeWhile_cons_of_pos (p := fun b => b != slash) hd] at ht
        have hdd : d = dot := (List.cons.inj ht).1
        have ht2 := (List.cons.inj ht).2
        refine ⟨by rw [hdd]; rfl, ?_⟩
        rcases takeWhile_eq_nil _ _ ht2 with h | ⟨b, v, h, hb⟩
        · exact Or.inl h
        · right
          simp only [List.tail_cons]
          rw [h, hslash b hb]; rfl
      · rw [List.takeWhile_cons_of_neg (p := fun b => b != slash) hd] at ht
        cases ht

/-- Invariant of the loop on a rooted path: the output is always a rooted path
of kept elements. -/
theorem cleanLoop_rooted_form (fuel : Nat) :
    ∀ (rest : GoString) (segs : List GoString), (∀ t ∈ segs, IsElem t) →
      ∃ segs2, (∀ t ∈ segs2, IsElem t) ∧
        cleanLoop true fuel rest (rootedPath segs) 1 = rootedPath segs2 := by
  induction fuel with
  | zero => intro rest segs hs; exact ⟨segs, hs, rfl⟩
  | succ fuel ih =>
    intro rest segs hs
    have hnil : ∀ t ∈ segs, t ≠ [] := fun t ht => (hs t ht).1
    cases rest with
    | nil => exact ⟨segs, hs, rfl⟩
    | cons c rest =>
      rw [cleanLoop]
      by_cases hc : c = slash
      · rw [if_pos hc]; exact ih rest segs hs
      · rw [if_neg hc]
        by_cases h2 : c = dot ∧ (rest = [] ∨ rest.head? = some slash)
        · rw [if_pos h2]; exact ih rest segs hs
        · rw [if_neg h2]
          by_cases h3 : c = dot ∧ rest.head? = some dot ∧
              (rest.tail = [] ∨ rest.tail.head? = some slash)
          · rw [if_pos h3]
            by_cases hlen : (rootedPath segs).length > 1
            · rw [if_pos hlen]
              rcases List.eq_nil_or_concat segs with h | ⟨init, last, h⟩
              · subst h; simp [rootedPath] at hlen
              · subst h
                rw [List.concat_eq_append] at hs hnil ⊢
                have hi : ∀ t ∈ init, IsElem t := fun t ht => hs t (List.mem_append_left _ ht)
                have hl : IsElem last := hs last (by simp)
                rw [backtrack_rootedPath init last (fun t ht => (hi t ht).1) hl]
                exact ih rest.tail init hi
            · rw [if_neg hlen]
              simp only [Bool.not_true, Bool.false_eq_true, if_false]
              exact ih rest.tail segs hs
          · rw [if_neg h3]
            simp only []
            rw [rootedPath_push segs _ hnil]
            have he := copied_isElem c rest hc h2 h3
            apply ih
            intro t ht
            rcases List.mem_append.mp ht with h | h
            · exact hs t h
            · rw [List.mem_singleton.mp h]; exact he

/-- A rooted path that `Clean` leaves unchanged is a rooted path of kept
elements. -/
theorem clean_fixed_form (a : GoString) (hroot : a.head? = some slash)
    (hclean : filepath_Clean a = a) :
    ∃ segs, (∀ t ∈ segs, IsElem t) ∧ a = rootedPath segs := by
  cases a with
  | nil => simp at hroot
  | cons c t =>
    have hc : c = slash := by simpa using hroot
    subst hc
    obtain ⟨segs, hs, hloop⟩ := cleanLoop_rooted_form (slash :: t).length t [] (by simp)
    refine ⟨segs, hs, ?_⟩
    have hres : rootedPath segs ≠ [] := by
      by_cases hx : segs = []
      · subst hx; simp [rootedPath]
      · cases segs with
        | nil => exact absurd rfl hx
        | cons s more => simp [rootedPath, elemsBody]
    rw [rootedPath_nil] at hloop
    simp only [filepath_Clean, List.head?_cons, beq_self_eq_true, if_true, List.drop_one,
      List.tail_cons] at hclean
    rw [if_neg (by simp), hloop, if_neg hres] at hclean
    exact hclean.symm

/-- For a cleaned rooted path, joining its directory and its base name gives
the path back. -/
theorem Join_Dir_Base (a : GoString) (hroot : a.head? = some slash)
    (hclean : filepath_Clean a = a) :
    filepath_Join [filepath_Dir a, filepath_Base a] = a := by
  obtain ⟨segs, hs, rfl⟩ := clean_fixed_form a hroot hclean
  rcases List.eq_nil_or_concat segs with h | ⟨init, last, h⟩
  · subst h; decide
  · subst h
    rw [List.concat_eq_append] at hs ⊢
    have hi : ∀ t ∈ init, IsElem t := fun t ht => hs t (List.mem_append_left _ ht)
    have hl : IsElem last := hs last (by simp)
    rw [Dir_elem init last hi hl, Base_rootedPath init last hl, Join_rootedPath init last hi hl]

/-! ## The prefix of a directory other than the root -/

/-- For an existing directory whose absolute form is not made of separators
only, and an empty url prefix, the returned prefix contains no `'/'` at all. -/
theorem directory_prefix_no_slash (env : Env) (g gp : Globals) (info : FileInfo)
    (hU : WantUsage env.Args = .ok false)
    (hP : env.flagParse (env.Args.drop 1) g = .ok gp)
    (hV : gp.WantVersion = false)
    (hS : env.Stat gp.HandlingPath = (some info, none))
    (hD : info.isDir = true)
    (hp : gp.UrlPrefix = [])
    (hN : ∃ b ∈ env.AbsPathMust gp.HandlingPath, b ≠ slash) :
    ∃ r gf out, ParseArgs env g = .returned r gf out ∧ r.err = none ∧
      slash ∉ r.pfx ∧ r.pfx ≠ [] :=
  ⟨_, _, _, ParseArgs_directory env g gp info hU hP hV hS hD hp, rfl,
    (Base_no_slash _ hN).1, (Base_no_slash _ hN).2⟩

/-! ## C1: a path that does not exist -/

/-- C1 (the code departs from the claim). For a handling path that `os.Stat`
reports missing (no file info, a not-exist error), with no help token and the
version flag unset, the test on line 123 reads the result `err`, still nil,
instead of the error `e` of the stat call: the not-found branch is skipped and
the run continues to `info.IsDir()` on a nil `info`, where it panics. No
path-not-found error is returned. -/
theorem C1_missing_path_panics (env : Env) (g gp : Globals) (e : GoError)
    (hU : WantUsage env.Args = .ok false)
    (hP : env.flagParse (env.Args.drop 1) g = .ok gp)
    (hV : gp.WantVersion = false)
    (hS : env.Stat gp.HandlingPath = (none, some e))
    (_hE : os_IsNotExist (some e) = true) :
    ParseArgs env g = .panicked .nilDereference :=
  ParseArgs_missing env g gp (some e) hU hP hV hS

/-- C1 at `-p /does/not/exist`: the run panics on the nil file info. -/
theorem C1_missing_path_panics_witness :
    ParseArgs missingEnv (InitArgs missingEnv zeroGlobals) = .panicked .nilDereference :=
  C1_missing_path_panics missingEnv (InitArgs missingEnv zeroGlobals)
    (demoParsed [] (str "127.0.0.1:8080") (str "/does/not/exist") false)
    (.pathError (str "stat") (str "/does/not/exist") ENOENT)
    (by decide) (by decide) (by decide) (by decide) (by decide)

/-! ## C2: a prefix without edge slashes -/

/-- C2 fails as stated: on `--url-prefix //share//` with an existing directory
the run returns the prefix `/share/`, which begins and ends with `'/'`. -/
theorem C2_double_slash_counterexample :
    ∃ r gf out,
      ParseArgs doubleSlashEnv (InitArgs doubleSlashEnv zeroGlobals) = .returned r gf out ∧
      r.err = none ∧ r.pfx = str "/share/" ∧
      r.pfx.head? = some slash ∧ r.pfx.getLast? = some slash :=
  ⟨⟨str "127.0.0.1:8080", str "/opt/share0/releases", [], str "/share/",
      str "http://127.0.0.1:8080//share//", none⟩,
    demoParsed (str "/share/") (str "127.0.0.1:8080") (str "/opt/share0/releases") false, [],
    by decide, rfl, rfl, by decide, by decide⟩

/-- C2, amended. For every non-empty url prefix `p` other than `"/"` and every
existing handling path (no help token, version flag unset) `ParseArgs` returns
with a nil error and with `prefix` equal to `p` after the one-shot trimming;
that prefix neither begins nor ends with `'/'` exactly when `p` is `"//"` or
`p` neither begins nor ends with `"//"`. -/
theorem C2_prefix_edges (env : Env) (g gp : Globals) (info : FileInfo)
    (hU : WantUsage env.Args = .ok false)
    (hP : env.flagParse (env.Args.drop 1) g = .ok gp)
    (hV : gp.WantVersion = false)
    (hS : env.Stat gp.HandlingPath = (some info, none))
    (hne : gp.UrlPrefix ≠ [])
    (hs : gp.UrlPrefix ≠ [slash]) :
    ∃ r gf out, ParseArgs env g = .returned r gf out ∧ r.err = none ∧
      r.pfx = stripOnce gp.UrlPrefix ∧
      ((r.pfx.head? ≠ some slash ∧ r.pfx.getLast? ≠ some slash) ↔
        (gp.UrlPrefix = [slash, slash] ∨
          (¬ [slash, slash] <+: gp.UrlPrefix ∧ ¬ [slash, slash] <:+ gp.UrlPrefix))) := by
  have hrun := ParseArgs_existing env g gp info none hU hP hV hS
  rw [if_pos hne, trimUrlPrefix_ok _ hne hs] at hrun
  exact ⟨_, _, _, hrun, rfl, rfl, stripOnce_edges gp.UrlPrefix hne hs⟩

/-- C2 at `--url-prefix /share/` and at `--url-prefix share`: both give the
prefix `share`, without edge slashes. -/
theorem C2_prefix_edges_witness :
    (∃ r gf out, ParseArgs shareEnv (InitArgs shareEnv zeroGlobals) = .returned r gf out ∧
      r.pfx = str "share" ∧ r.pfx.head? ≠ some slash ∧ r.pfx.getLast? ≠ some slash) ∧
    (∃ r gf out, ParseArgs bareShareEnv (InitArgs bareShareEnv zeroGlobals) = .returned r gf out ∧
      r.pfx = str "share" ∧ r.pfx.head? ≠ some slash ∧ r.pfx.getLast? ≠ some slash) := by
  constructor
  · obtain ⟨r, gf, out, h1, _, h3, h4⟩ :=
      C2_prefix_edges shareEnv (InitArgs shareEnv zeroGlobals)
        (demoParsed (str "/share/") (str "127.0.0.1:8080") (str "/opt/share0/releases") false)
        ⟨true⟩ (by decide) (by decide) (by decide) (by decide) (by decide) (by decide)
    have h5 := h4.mpr (Or.inr ⟨by decide, by decide⟩)
    exact ⟨r, gf, out, h1, h3.trans (by decide), h5.1, h5.2⟩
  · obtain ⟨r, gf, out, h1, _, h3, h4⟩ :=
      C2_prefix_edges bareShareEnv (InitArgs bareShareEnv zeroGlobals)
        (demoParsed (str "share") (str "127.0.0.1:8080") (str "/opt/share0/releases") false)
        ⟨true⟩ (by decide) (by decide) (by decide) (by decide) (by decide) (by decide)
    have h5 := h4.mpr (Or.inr ⟨by decide, by decide⟩)
    exact ⟨r, gf, out, h1, h3.trans (by decide), h5.1, h5.2⟩

/-! ## C3: the prefix `"/"` -/

/-- C3 (the code departs from the claim). For the url prefix `"/"` and an
existing handling path the run does not return a prefix: the leading `'/'` is
removed, the string left is empty, and the byte test on line 143 indexes it at
`-1`; the run panics with an index out of range. -/
theorem C3_slash_prefix_panics (env : Env) (g gp : Globals) (info : FileInfo)
    (hU : WantUsage env.Args = .ok false)
    (hP : env.flagParse (env.Args.drop 1) g = .ok gp)
    (hV : gp.WantVersion = false)
    (hS : env.Stat gp.HandlingPath = (some info, none))
    (hp : gp.UrlPrefix = [slash]) :
    ParseArgs env g = .panicked (.indexOutOfRange (-1) 0) := by
  rw [ParseArgs_existing env g gp info none hU hP hV hS, hp, trimUrlPrefix_slash]
  simp

/-- C3 at `--url-prefix / -p /opt/share0/releases`. -/
theorem C3_slash_prefix_panics_witness :
    ParseArgs slashEnv (InitArgs slashEnv zeroGlobals) = .panicked (.indexOutOfRange (-1) 0) :=
  C3_slash_prefix_panics slashEnv (InitArgs slashEnv zeroGlobals)
    (demoParsed (str "/") (str "127.0.0.1:8080") (str "/opt/share0/releases") false) ⟨true⟩
    (by decide) (by decide) (by decide) (by decide) (by decide)

/-! ## C4: the url -/

/-- C4. On every run that returns with a nil error, `url` is
`"http://" ++ addr ++ "/" ++ prefix ++ "/" ++ filename` and `addr` is the
listening address that flag parsing left, unchanged; a run that differs only
in the value of the scheme option returns the same six results. -/
theorem C4_url_form (env : Env) (g gf : Globals) (r : Results) (out : List Output)
    (hR : ParseArgs env g = .returned r gf out) (hok : r.err = none) :
    r.url = str "http://" ++ r.addr ++ str "/" ++ r.pfx ++ str "/" ++ r.filename ∧
    (∃ gp, env.flagParse (env.Args.drop 1) g = .ok gp ∧ r.addr = gp.ListeningAddr) ∧
    ∀ s : GoString,
      ParseArgs (withScheme env s) g = .returned r { gf with Scheme := s } out := by
  obtain ⟨gp, info, e, hU, hP, hV, hS⟩ := success_inv env g gf r out hR hok
  have hU2 (s : GoString) : WantUsage (withScheme env s).Args = .ok false := hU
  have hP2 (s : GoString) :
      (withScheme env s).flagParse ((withScheme env s).Args.drop 1) g
        = .ok { gp with Scheme := s } := by
    show (match env.flagParse (env.Args.drop 1) g with
      | .ok gp => Except.ok { gp with Scheme := s }
      | .error code => .error code) = _
    rw [hP]
  have hS2 (s : GoString) :
      (withScheme env s).Stat ({ gp with Scheme := s } : Globals).HandlingPath = (some info, e) := hS
  have hE := ParseArgs_existing env g gp info e hU hP hV hS
  have hE2 (s : GoString) :=
    ParseArgs_existing (withScheme env s) g { gp with Scheme := s } info e (hU2 s) (hP2 s) hV (hS2 s)
  rw [hR] at hE
  by_cases hne : gp.UrlPrefix = []
  · simp only [hne, ne_eq, not_true_eq_false, if_false, Outcome.returned.injEq] at hE
    obtain ⟨hr, hg, ho⟩ := hE
    refine ⟨?_, ⟨gp, hP, ?_⟩, ?_⟩
    · rw [hr]; exact formatUrl_eq _ _ _
    · rw [hr]
    · intro s
      rw [hE2 s]
      simp only [hne, ne_eq, not_true_eq_false, if_false]
      rw [hr, hg, ho]
      rfl
  · rw [if_pos hne] at hE
    have hE2b (s : GoString) := hE2 s
    simp only [ne_eq, hne, not_false_eq_true, if_true] at hE2b
    cases hT : trimUrlPrefix gp.UrlPrefix with
    | error p => rw [hT] at hE; cases hE
    | ok t =>
      rw [hT] at hE
      simp only [Outcome.returned.injEq] at hE
      obtain ⟨hr, hg, ho⟩ := hE
      refine ⟨?_, ⟨gp, hP, ?_⟩, ?_⟩
      · rw [hr]; exact formatUrl_eq _ _ _
      · rw [hr]
      · intro s
        rw [hE2b s, hT]
        simp only
        rw [hr, hg, ho]
        rfl

/-- C4 at
`--url-prefix /share/releases/ -a 10.0.13.120:8080 -p /opt/share0/releases/notes.txt`:
the url is `http://10.0.13.120:8080/share/releases/notes.txt`, also when the
scheme is `https`. -/
theorem C4_url_form_witness :
    str "http://10.0.13.120:8080/share/releases/notes.txt"
        = str "http://" ++ str "10.0.13.120:8080" ++ str "/" ++ str "share/releases" ++ str "/"
          ++ str "notes.txt" ∧
    (∃ gp, fileEnv.flagParse (fileEnv.Args.drop 1) (InitArgs fileEnv zeroGlobals) = .ok gp ∧
      str "10.0.13.120:8080" = gp.ListeningAddr) ∧
    ∀ s : GoString,
      ParseArgs (withScheme fileEnv s) (InitArgs fileEnv zeroGlobals) =
        .returned
          ⟨str "10.0.13.120:8080", str "/opt/share0/releases", str "notes.txt",
            str "share/releases", str "http://10.0.13.120:8080/share/releases/notes.txt", none⟩
          { demoParsed (str "share/releases") (str "10.0.13.120:8080")
              (str "/opt/share0/releases/notes.txt") false with Scheme := s } [] :=
  C4_url_form fileEnv (InitArgs fileEnv zeroGlobals)
    (demoParsed (str "share/releases") (str "10.0.13.120:8080")
      (str "/opt/share0/releases/notes.txt") false)
    ⟨str "10.0.13.120:8080", str "/opt/share0/releases", str "notes.txt",
      str "share/releases", str "http://10.0.13.120:8080/share/releases/notes.txt", none⟩ []
    (by decide) rfl

/-! ## C5: a directory and no url prefix -/

/-- C5. For an existing directory and an empty url prefix (no help token,
version flag unset) `ParseArgs` returns with a nil error, `addr` the listening
address, `dir` the absolute form of the path, `filename` empty, `prefix` the
base name of `dir`, and `url` built from them. -/
theorem C5_directory_defaults (env : Env) (g gp : Globals) (info : FileInfo)
    (hU : WantUsage env.Args = .ok false)
    (hP : env.flagParse (env.Args.drop 1) g = .ok gp)
    (hV : gp.WantVersion = false)
    (hS : env.Stat gp.HandlingPath = (some info, none))
    (hD : info.isDir = true)
    (hp : gp.UrlPrefix = []) :
    ParseArgs env g =
      .returned
        ⟨gp.ListeningAddr, env.AbsPathMust gp.HandlingPath, [],
          filepath_Base (env.AbsPathMust gp.HandlingPath),
          formatUrl gp.ListeningAddr (filepath_Base (env.AbsPathMust gp.HandlingPath)) [],
          none⟩
        { gp with HandlingPath := env.AbsPathMust gp.HandlingPath } [] :=
  ParseArgs_directory env g gp info hU hP hV hS hD hp

/-- C5 at `-a 10.0.13.120:8080 -p /opt/share0/releases`: prefix `releases`,
url `http://10.0.13.120:8080/releases/`. -/
theorem C5_directory_defaults_witness :
    ParseArgs dirEnv (InitArgs dirEnv zeroGlobals) =
      .returned
        ⟨str "10.0.13.120:8080", str "/opt/share0/releases", str "", str "releases",
          str "http://10.0.13.120:8080/releases/", none⟩
        (demoParsed [] (str "10.0.13.120:8080") (str "/opt/share0/releases") false) [] :=
  (C5_directory_defaults dirEnv (InitArgs dirEnv zeroGlobals)
    (demoParsed [] (str "10.0.13.120:8080") (str "/opt/share0/releases") false) ⟨true⟩
    (by decide) (by decide) (by decide) (by decide) (by decide) (by decide)).trans (by decide)

/-! ## C6: a regular file -/

/-- C6 (the code departs from the claim). On a run that reaches an existing
regular file (no help token, version flag unset), `dir` and `filename` are
assigned on lines 135-136, but with the url prefix `"/"` the byte test on line
143 then panics and nothing is returned. For every other url prefix
`ParseArgs` returns with a nil error, `dir` the directory part of the absolute
form of the path and `filename` its base name, and when that absolute form is
a cleaned rooted path, joining `dir` and `filename` gives it back. -/
theorem C6_file_dir_and_name (env : Env) (g gp : Globals) (info : FileInfo)
    (hU : WantUsage env.Args = .ok false)
    (hP : env.flagParse (env.Args.drop 1) g = .ok gp)
    (hV : gp.WantVersion = false)
    (hS : env.Stat gp.HandlingPath = (some info, none))
    (hF : info.isDir = false) :
    (gp.UrlPrefix = [slash] → ParseArgs env g = .panicked (.indexOutOfRange (-1) 0)) ∧
    (gp.UrlPrefix ≠ [slash] →
      ∃ r gf out, ParseArgs env g = .returned r gf out ∧ r.err = none ∧
        r.dir = filepath_Dir (env.AbsPathMust gp.HandlingPath) ∧
        r.filename = filepath_Base (env.AbsPathMust gp.HandlingPath) ∧
        ((env.AbsPathMust gp.HandlingPath).head? = some slash →
          filepath_Clean (env.AbsPathMust gp.HandlingPath) = env.AbsPathMust gp.HandlingPath →
          filepath_Join [r.dir, r.filename] = env.AbsPathMust gp.HandlingPath)) := by
  have hrun := ParseArgs_existing env g gp info none hU hP hV hS
  constructor
  · intro hp
    rw [hrun, hp, trimUrlPrefix_slash]
    simp
  · intro hp
    simp only [hF, Bool.false_eq_true, if_false] at hrun
    by_cases hne : gp.UrlPrefix = []
    · rw [if_neg (by simp [hne])] at hrun
      exact ⟨_, _, _, hrun, rfl, rfl, rfl, fun h1 h2 => Join_Dir_Base _ h1 h2⟩
    · rw [if_pos hne, trimUrlPrefix_ok _ hne hp] at hrun
      exact ⟨_, _, _, hrun, rfl, rfl, rfl, fun h1 h2 => Join_Dir_Base _ h1 h2⟩

/-- C6 at `--url-prefix / -p /opt/share0/releases/notes.txt`, where the run
panics, and at
`--url-prefix /share/releases/ -a 10.0.13.120:8080 -p /opt/share0/releases/notes.txt`,
where `dir` is `/opt/share0/releases`, `filename` is `notes.txt`, and they
join to the path. -/
theorem C6_file_dir_and_name_witness :
    ParseArgs fileSlashEnv (InitArgs fileSlashEnv zeroGlobals)
      = .panicked (.indexOutOfRange (-1) 0) ∧
    ∃ r gf out, ParseArgs fileEnv (InitArgs fileEnv zeroGlobals) = .returned r gf out ∧
      r.err = none ∧ r.dir = str "/opt/share0/releases" ∧ r.filename = str "notes.txt" ∧
      filepath_Join [r.dir, r.filename] = str "/opt/share0/releases/notes.txt" := by
  constructor
  · exact (C6_file_dir_and_name fileSlashEnv (InitArgs fileSlashEnv zeroGlobals)
      (demoParsed (str "/") (str "127.0.0.1:8080") (str "/opt/share0/releases/notes.txt") false)
      ⟨false⟩ (by decide) (by decide) (by decide) (by decide) rfl).1 (by decide)
  · obtain ⟨r, gf, out, h1, h2, h3, h4, h5⟩ :=
      (C6_file_dir_and_name fileEnv (InitArgs fileEnv zeroGlobals)
        (demoParsed (str "/share/releases/") (str "10.0.13.120:8080")
          (str "/opt/share0/releases/notes.txt") false)
        ⟨false⟩ (by decide) (by decide) (by decide) (by decide) rfl).2 (by decide)
    exact ⟨r, gf, out, h1, h2, h3.trans (by decide), h4.trans (by decide),
      (h5 (by decide) (by decide)).trans (by decide)⟩

/-! ## C7: help -/

/-- C7 fails as stated: on `-h` with standard output redirected to `/dev/full`
a help token is present, executing the usage template fails, and `log.Fatalln`
ends the process with status 1; `ParseArgs` does not return. -/
theorem C7_help_exit_counterexample :
    WantUsage helpFullEnv.Args = .ok true ∧
    ParseArgs helpFullEnv (InitArgs helpFullEnv zeroGlobals) = .exited 1 ∧
    ¬ ∃ r gf out, ParseArgs helpFullEnv (InitArgs helpFullEnv zeroGlobals) = .returned r gf out := by
  refine ⟨by decide, by decide, ?_⟩
  rintro ⟨r, gf, out, h⟩
  have h1 : ParseArgs helpFullEnv (InitArgs helpFullEnv zeroGlobals) = .exited 1 := by decide
  rw [h1] at h
  cases h

/-- C7, amended. `WantUsage` returns true exactly when some argument after the
program name is one of `-h`, `--h`, `-help`, `--help`, and false otherwise.
When it returns true, the run ends in `ShowUsage`, whatever `flag.Parse` would
do on this command line: if the usage template executes without error,
`ParseArgs` returns the help outcome (every string result empty, the error
`just show usage`) and hands back the variables unchanged; if it executes with
an error, the process exits with status 1. -/
theorem C7_help_short_circuit (prog : GoString) (rest : List GoString) :
    (WantUsage (prog :: rest) = .ok true ↔
      ∃ arg ∈ rest,
        arg = str "-h" ∨ arg = str "--h" ∨ arg = str "-help" ∨ arg = str "--help") ∧
    (WantUsage (prog :: rest) = .ok false ↔
      ¬ ∃ arg ∈ rest,
        arg = str "-h" ∨ arg = str "--h" ∨ arg = str "-help" ∨ arg = str "--help") ∧
    ∀ (env : Env) (g : Globals), env.Args = prog :: rest → WantUsage env.Args = .ok true →
      (env.Execute prog (str "http") (str "127.0.0.1:8080") env.UserHomeDirMust = none →
        ParseArgs env g =
          .returned ⟨[], [], [], [], [], some (errors_New (str "just show usage"))⟩ g
            [.usage prog (str "http") (str "127.0.0.1:8080") env.UserHomeDirMust]) ∧
      (∀ e, env.Execute prog (str "http") (str "127.0.0.1:8080") env.UserHomeDirMust = some e →
        ParseArgs env g = .exited 1) := by
  have key : (rest.any (fun arg => decide (arg ∈ helpArgs)) = true) ↔
      ∃ arg ∈ rest,
        arg = str "-h" ∨ arg = str "--h" ∨ arg = str "-help" ∨ arg = str "--help" := by
    simp only [List.any_eq_true, decide_eq_true_eq, mem_helpArgs]
  refine ⟨?_, ?_, ?_⟩
  · rw [WantUsage_cons, ← key]
    constructor
    · intro h; exact Except.ok.inj h
    · intro h; rw [h]
  · rw [WantUsage_cons, ← key]
    constructor
    · intro h; have := Except.ok.inj h; simp [this]
    · intro h; simp only [Bool.not_eq_true] at h; rw [h]
  · intro env g hA hU
    exact ⟨fun hX => ParseArgs_help env g prog rest hA hU hX,
      fun e hX => ParseArgs_help_fatal env g prog rest e hA hU hX⟩

/-- C7 at `-v -a --help -p /does/not/exist`: the help token stands where the
value of `-a` would be, a version flag is present, the usage text is written,
and the run returns the help outcome with the variables untouched. -/
theorem C7_help_short_circuit_witness :
    WantUsage helpEnv.Args = .ok true ∧
    ParseArgs helpEnv zeroGlobals =
      .returned ⟨[], [], [], [], [], some (errors_New (str "just show usage"))⟩ zeroGlobals
        [.usage (str "gofs") (str "http") (str "127.0.0.1:8080") (str "/root")] :=
  ⟨by decide,
    ((C7_help_short_circuit (str "gofs")
      [str "-v", str "-a", str "--help", str "-p", str "/does/not/exist"]).2.2
      helpEnv zeroGlobals rfl (by decide)).1 (by decide)⟩

/-! ## C8: help and version produce no configuration -/

/-- C8 fails as stated: on `--help -p /does/not/exist` with standard output
redirected to `/dev/full` help is requested, and the process exits with status
1 in `ShowUsage`; `ParseArgs` returns no signal. -/
theorem C8_help_exit_counterexample :
    WantUsage helpMissingFullEnv.Args = .ok true ∧
    ParseArgs helpMissingFullEnv (InitArgs helpMissingFullEnv zeroGlobals) = .exited 1 ∧
    ¬ ∃ r gf out,
      ParseArgs helpMissingFullEnv (InitArgs helpMissingFullEnv zeroGlobals)
        = .returned r gf out := by
  refine ⟨by decide, by decide, ?_⟩
  rintro ⟨r, gf, out, h⟩
  have h1 : ParseArgs helpMissingFullEnv (InitArgs helpMissingFullEnv zeroGlobals) = .exited 1 := by
    decide
  rw [h1] at h
  cases h

/-- C8, amended. When a help token is present and the usage template executes
without error, or when the version flag is set after parsing, `ParseArgs`
returns with every string result empty and a non-nil error; when a help token
is present and the template executes with an error, the process exits with
status 1 and nothing is returned. All three hold whatever the filesystem says
about the handling path. The help error, the version error and the nil error
of a success are pairwise different. -/
theorem C8_no_configuration (env : Env) (g : Globals)
    (stat : GoString → Option FileInfo × Option GoError) :
    (∀ prog rest, env.Args = prog :: rest → WantUsage env.Args = .ok true →
      (env.Execute prog (str "http") (str "127.0.0.1:8080") env.UserHomeDirMust = none →
        ∃ out, ParseArgs (withStat env stat) g =
          .returned ⟨[], [], [], [], [], some (errors_New (str "just show usage"))⟩ g out) ∧
      (∀ e, env.Execute prog (str "http") (str "127.0.0.1:8080") env.UserHomeDirMust = some e →
        ParseArgs (withStat env stat) g = .exited 1)) ∧
    (∀ gp, WantUsage env.Args = .ok false → env.flagParse (env.Args.drop 1) g = .ok gp →
      gp.WantVersion = true →
      ParseArgs (withStat env stat) g =
        .returned ⟨[], [], [], [], [], some (errors_New (str "just show version"))⟩ gp
          [ShowVersion]) ∧
    errors_New (str "just show usage") ≠ errors_New (str "just show version") ∧
    some (errors_New (str "just show usage")) ≠ (none : Option GoError) ∧
    some (errors_New (str "just show version")) ≠ (none : Option GoError) := by
  refine ⟨?_, ?_, by decide, by simp, by simp⟩
  · intro prog rest hA hU
    exact ⟨fun hX => ⟨_, ParseArgs_help (withStat env stat) g prog rest hA hU hX⟩,
      fun e hX => ParseArgs_help_fatal (withStat env stat) g prog rest e hA hU hX⟩
  · intro gp hU hP hV
    have hU2 : WantUsage (withStat env stat).Args = .ok false := hU
    have hP2 : (withStat env stat).flagParse ((withStat env stat).Args.drop 1) g = .ok gp := hP
    simp only [ParseArgs, hU2, hP2, hV, onlyErr, if_true]

/-- C8 at `-v -p /does/not/exist`, and at the help run of the same missing
path with a standard output that accepts the usage text. -/
theorem C8_no_configuration_witness :
    (∃ out, ParseArgs (withStat helpEnv demoStat) zeroGlobals =
        .returned ⟨[], [], [], [], [], some (errors_New (str "just show usage"))⟩ zeroGlobals
          out) ∧
    ParseArgs (withStat versionEnv demoStat) (InitArgs versionEnv zeroGlobals) =
      .returned ⟨[], [], [], [], [], some (errors_New (str "just show version"))⟩
        (demoParsed [] (str "127.0.0.1:8080") (str "/does/not/exist") true) [ShowVersion] :=
  ⟨((C8_no_configuration helpEnv zeroGlobals demoStat).1 (str "gofs")
      [str "-v", str "-a", str "--help", str "-p", str "/does/not/exist"] rfl (by decide)).1
      (by decide),
    (C8_no_configuration versionEnv (InitArgs versionEnv zeroGlobals) demoStat).2.1
      (demoParsed [] (str "127.0.0.1:8080") (str "/does/not/exist") true)
      (by decide) (by decide) (by decide)⟩

/-! ## C9: the root directory -/

/-- C9 (the code departs from the claim). For the root directory and an empty
url prefix the run succeeds with `prefix = "/"`, the base name that
`filepath.Base` gives for a path made of separators: the prefix begins and ends
with `'/'`. -/
theorem C9_root_prefix_is_slash (env : Env) (g gp : Globals) (info : FileInfo)
    (hU : WantUsage env.Args = .ok false)
    (hP : env.flagParse (env.Args.drop 1) g = .ok gp)
    (hV : gp.WantVersion = false)
    (hS : env.Stat gp.HandlingPath = (some info, none))
    (hD : info.isDir = true)
    (hp : gp.UrlPrefix = [])
    (hR : env.AbsPathMust gp.HandlingPath = [slash]) :
    ∃ r gf out, ParseArgs env g = .returned r gf out ∧ r.err = none ∧ r.dir = [slash] ∧
      r.pfx = [slash] ∧ r.pfx.head? = some slash ∧ r.pfx.getLast? = some slash ∧
      r.url = str "http://" ++ gp.ListeningAddr ++ str "///" := by
  refine ⟨_, _, _, ParseArgs_directory env g gp info hU hP hV hS hD hp, rfl, hR, ?_, ?_, ?_, ?_⟩
  · simp only [hR]; decide
  · simp only [hR]; decide
  · simp only [hR]; decide
  · have hB : filepath_Base [slash] = [slash] := by decide
    have hH : str "http" ++ str "://" = str "http://" := by decide
    have hT : str "/" ++ ([slash] ++ (str "/" ++ [])) = str "///" := by decide
    simp only [hR, hB, formatUrl, List.append_assoc]
    rw [hT, ← List.append_assoc, hH]

/-- C9 at `-p /`: prefix `/` and url `http://127.0.0.1:8080///`. -/
theorem C9_root_prefix_is_slash_witness :
    ∃ r gf out, ParseArgs rootEnv (InitArgs rootEnv zeroGlobals) = .returned r gf out ∧
      r.err = none ∧ r.dir = [slash] ∧
      r.pfx = [slash] ∧ r.pfx.head? = some slash ∧ r.pfx.getLast? = some slash ∧
      r.url = str "http://" ++ str "127.0.0.1:8080" ++ str "///" :=
  C9_root_prefix_is_slash rootEnv (InitArgs rootEnv zeroGlobals)
    (demoParsed [] (str "127.0.0.1:8080") (str "/") false) ⟨true⟩
    (by decide) (by decide) (by decide) (by decide) (by decide) (by decide) (by decide)

/-! ## C10: bounds of the two byte tests -/

/-- C10. For a non-empty url prefix `p` the first byte test `p[0]` is in
bounds; the second test, on the last byte of the string left after the
optional removal of the leading `'/'`, is out of bounds exactly when `p` is
`"/"`. So for an existing path the run panics with an index out of range
exactly when the url prefix is `"/"`, and returns with a nil error for every
other url prefix. -/
theorem C10_trim_bounds (env : Env) (g gp : Globals) (info : FileInfo)
    (hU : WantUsage env.Args = .ok false)
    (hP : env.flagParse (env.Args.drop 1) g = .ok gp)
    (hV : gp.WantVersion = false)
    (hS : env.Stat gp.HandlingPath = (some info, none)) :
    (∀ p : GoString, p ≠ [] →
      (∃ first, index p 0 = .ok first ∧
        ((∃ panic, index (if first = slash then p.drop 1 else p)
            (((if first = slash then p.drop 1 else p).length : Int) - 1) = .error panic)
          ↔ p = [slash]))) ∧
    ((∃ i n, ParseArgs env g = .panicked (.indexOutOfRange i n)) ↔ gp.UrlPrefix = [slash]) ∧
    (gp.UrlPrefix ≠ [slash] →
      ∃ r gf out, ParseArgs env g = .returned r gf out ∧ r.err = none) := by
  have hret : gp.UrlPrefix ≠ [slash] →
      ∃ r gf out, ParseArgs env g = .returned r gf out ∧ r.err = none := by
    intro hs
    rw [ParseArgs_existing env g gp info none hU hP hV hS]
    by_cases hne : gp.UrlPrefix = []
    · simp [hne]
    · rw [if_pos hne, trimUrlPrefix_ok _ hne hs]
      exact ⟨_, _, _, rfl, rfl⟩
  refine ⟨?_, ?_, hret⟩
  · intro p hne
    cases p with
    | nil => exact absurd rfl hne
    | cons c t =>
      refine ⟨c, index_zero_cons c t, ?_⟩
      by_cases hc : c = slash
      · subst hc
        simp only [if_true, List.drop_one, List.tail_cons]
        cases t with
        | nil => exact ⟨fun _ => rfl, fun _ => ⟨_, index_nil_last⟩⟩
        | cons d u =>
          rw [index_last_ne_nil (d :: u) (by simp)]
          simp
      · rw [if_neg hc, index_last_ne_nil (c :: t) (by simp)]
        constructor
        · rintro ⟨_, h⟩; cases h
        · intro h
          exact absurd (List.cons.inj h).1 hc
  · constructor
    · rintro ⟨i, n, h⟩
      by_contra hs
      obtain ⟨r, gf, out, h2, _⟩ := hret hs
      rw [h2] at h
      cases h
    · intro hp
      refine ⟨-1, 0, ?_⟩
      rw [ParseArgs_existing env g gp info none hU hP hV hS, hp, trimUrlPrefix_slash]
      simp

/-- C10 at `--url-prefix / -p /opt/share0/releases`: the first test is in
bounds, the second is not, and the run panics. -/
theorem C10_trim_bounds_witness :
    (∃ first, index (str "/") 0 = .ok first ∧
      ((∃ panic, index (if first = slash then (str "/").drop 1 else str "/")
          (((if first = slash then (str "/").drop 1 else str "/").length : Int) - 1)
            = .error panic)
        ↔ str "/" = [slash])) ∧
    ∃ i n, ParseArgs slashEnv (InitArgs slashEnv zeroGlobals) = .panicked (.indexOutOfRange i n) :=
  have h := C10_trim_bounds slashEnv (InitArgs slashEnv zeroGlobals)
    (demoParsed (str "/") (str "127.0.0.1:8080") (str "/opt/share0/releases") false) ⟨true⟩
    (by decide) (by decide) (by decide) (by decide)
  ⟨h.1 (str "/") (by decide), h.2.1.mpr (by decide)⟩

end Gofs
